import Mathlib

/-!
Verification of the ClinicalTransformerRelationExtraction repository
(src/src/data_utils.py and src/src/task.py) against its natural-language
specification.  Texts are Lean `String`s; Python's `str.split(" ")`,
`" ".join`, and the `re.sub` preprocessing of `_process_seq_len` are
modelled character by character, and the tokenizer is an abstract
parameter `tokLen : String → Nat` giving `len(tokenizer.tokenize(s))`,
matching the spec's treatment of the tokenizer as a black box.
-/

namespace CTRE

/-!
## Definitions

### Words and texts
-/

/-- Model of Python `s.split(" ")` on the character list of `s`:
splitting at every single space, keeping empty pieces, and returning
one (possibly empty) piece for the empty input. -/
def splitSpaceChars : List Char → List (List Char)
  | [] => [[]]
  | c :: cs =>
    if c = ' ' then [] :: splitSpaceChars cs
    else
      match splitSpaceChars cs with
      | [] => [[c]]
      | w :: ws => (c :: w) :: ws

/-- Model of Python `text.split(" ")`. -/
def splitSpace (s : String) : List String :=
  (splitSpaceChars s.data).map (fun w => ⟨w⟩)

/-- Model of Python `" ".join` on character lists. -/
def joinSpaceChars : List (List Char) → List Char
  | [] => []
  | [w] => w
  | w :: v :: ws => w ++ ' ' :: joinSpaceChars (v :: ws)

/-- Model of Python `" ".join(words)`. -/
def joinSpace (ws : List String) : String :=
  ⟨joinSpaceChars (ws.map String.data)⟩

/-!
### The preprocessing substitution and the truncation loop of
`RelationDataFormatSepProcessor._process_seq_len` and
`RelationDataFormatUniProcessor._process_seq_len` (src/src/data_utils.py).
-/

/-- Model of `re.sub` with pattern alternation `\[ \* \*` or `\* \* \]`
and empty replacement: scan left to right, deleting each occurrence of
either five-character pattern and continuing after it. -/
def resubChars : List Char → List Char
  | '[' :: ' ' :: '*' :: ' ' :: '*' :: rest => resubChars rest
  | '*' :: ' ' :: '*' :: ' ' :: ']' :: rest => resubChars rest
  | c :: cs => c :: resubChars cs
  | [] => []

/-- The bracket-star preprocessing applied by `_process_seq_len` before
its truncation loop. -/
def resub (s : String) : String := ⟨resubChars s.data⟩

/-- Modelled from the spec: `SPEC_TAGS` is imported from `config.py`,
which is not among the sources; the spec fixes only that it is a fixed
small set of boundary markers delimiting the two entity spans of an
example.  It is modelled as four lowercase marker words. -/
def SPEC_TAGS : List String := ["es", "ee", "nes", "nee"]

/-- Model of Python `enumerate(ws)` starting at index `n`. -/
def enumerateFrom (n : Nat) : List String → List (Nat × String)
  | [] => []
  | w :: ws => (n, w) :: enumerateFrom (n + 1) ws

/-- Model of Python `w.lower()`, lowering character by character. -/
def pyLower (w : String) : String := ⟨w.data.map Char.toLower⟩

/-- The test `w.lower() in SPEC_TAGS` for a tag set `tags`. -/
def isTag (tags : List String) (w : String) : Bool :=
  decide (pyLower w ∈ tags)

/-- The tag-index list built by each loop iteration. -/
def tagIdxs (tags : List String) (ws : List String) : List Nat :=
  ((enumerateFrom 0 ws).filter (fun p => isTag tags p.2)).map Prod.fst

/-- Python's two-element destructuring `t1, t2 = lst`: it succeeds
exactly when the list has exactly two elements, and otherwise raises a
`ValueError`, modelled by `none`. -/
def destructure2 : List Nat → Option (Nat × Nat)
  | [t1, t2] => some (t1, t2)
  | _ => none

/-- One truncation decision on one word list: with `a1 = t1 - ss1 = t1`
and `b1 = se1 - t2 = length - t2`, pop the first word when `a1 > b1` and
otherwise pop the last word. -/
def popEnds (ws : List String) (t1 t2 : Nat) : List String :=
  if ws.length - t2 < t1 then ws.tail else ws.dropLast

/-- The body of one iteration of the Sep-processor while loop; `none`
models the uncaught `ValueError` of a failed destructuring. -/
def sepStep (tags : List String) (w1 w2 : List String) :
    Option (List String × List String) :=
  match destructure2 (tagIdxs tags w1), destructure2 (tagIdxs tags w2) with
  | some (t1, t2), some (t3, t4) => some (popEnds w1 t1 t2, popEnds w2 t3 t4)
  | _, _ => none

/-- Fuel-indexed model of the while loop of
`RelationDataFormatSepProcessor._process_seq_len`: `none` means the fuel
ran out, `some (Except.error ())` an uncaught `ValueError`, and
`some (Except.ok (a, b))` a normal return of the final text pair. -/
def sepLoop (tags : List String) (tokLen : String → Nat) (maxSeqLen : Nat) :
    Nat → String → String → Option (Except Unit (String × String))
  | 0, _, _ => none
  | fuel + 1, a, b =>
    if maxSeqLen < tokLen a + tokLen b then
      match sepStep tags (splitSpace a) (splitSpace b) with
      | none => some (Except.error ())
      | some (w1, w2) =>
          sepLoop tags tokLen maxSeqLen fuel (joinSpace w1) (joinSpace w2)
    else some (Except.ok (a, b))

/-- Model of `RelationDataFormatSepProcessor._process_seq_len`: the
bracket-star preprocessing followed by the truncation loop, with enough
fuel for the loop to finish. -/
def processSeqLenSep (tags : List String) (tokLen : String → Nat)
    (maxSeqLen : Nat) (a b : String) : Option (Except Unit (String × String)) :=
  let a1 := resub a
  let b1 := resub b
  sepLoop tags tokLen maxSeqLen
    ((splitSpace a1).length + (splitSpace b1).length + 1) a1 b1

/-- The body of one iteration of the Uni-processor while loop. -/
def uniStep (tags : List String) (w1 : List String) : Option (List String) :=
  match destructure2 (tagIdxs tags w1) with
  | some (t1, t2) => some (popEnds w1 t1 t2)
  | none => none

/-- Fuel-indexed model of the while loop of
`RelationDataFormatUniProcessor._process_seq_len`. -/
def uniLoop (tags : List String) (tokLen : String → Nat) (maxSeqLen : Nat) :
    Nat → String → Option (Except Unit String)
  | 0, _ => none
  | fuel + 1, a =>
    if maxSeqLen < tokLen a then
      match uniStep tags (splitSpace a) with
      | none => some (Except.error ())
      | some w1 => uniLoop tags tokLen maxSeqLen fuel (joinSpace w1)
    else some (Except.ok a)

/-- Model of `RelationDataFormatUniProcessor._process_seq_len`. -/
def processSeqLenUni (tags : List String) (tokLen : String → Nat)
    (maxSeqLen : Nat) (a : String) : Option (Except Unit String) :=
  let a1 := resub a
  uniLoop tags tokLen maxSeqLen ((splitSpace a1).length + 1) a1

/-- The whitespace tokenizer used in concrete instances: one token per
space-separated word. -/
def wordCountTok (s : String) : Nat := (splitSpace s).length

/-- The number of boundary-tag words occurring in a word list. -/
def countTags (tags : List String) (ws : List String) : Nat :=
  (ws.filter (isTag tags)).length

/-- The states at which the Sep-processor while loop evaluates its body,
in order: the text pairs for which the loop condition held and an
iteration was entered. -/
def sepReach (tags : List String) (tokLen : String → Nat) (maxSeqLen : Nat) :
    Nat → String → String → List (String × String)
  | 0, _, _ => []
  | fuel + 1, a, b =>
    if maxSeqLen < tokLen a + tokLen b then
      (a, b) ::
        (match sepStep tags (splitSpace a) (splitSpace b) with
         | none => []
         | some (w1, w2) =>
             sepReach tags tokLen maxSeqLen fuel (joinSpace w1) (joinSpace w2))
    else []

/-- The states at which the Uni-processor while loop evaluates its body. -/
def uniReach (tags : List String) (tokLen : String → Nat) (maxSeqLen : Nat) :
    Nat → String → List String
  | 0, _ => []
  | fuel + 1, a =>
    if maxSeqLen < tokLen a then
      a ::
        (match uniStep tags (splitSpace a) with
         | none => []
         | some w1 => uniReach tags tokLen maxSeqLen fuel (joinSpace w1))
    else []

/-!
### The training loop of `TaskRunner.train` (src/src/task.py).

The gradient of a parameter is modelled symbolically as the list of
`(batch index, scaled loss)` contributions currently held in the
gradient buffers.  `self.model.zero_grad()` empties the buffers,
`loss.backward()` appends the current batch's contribution, and an
optimizer update records which contributions it consumed.
-/

structure EpochState where
  gradBatches : List (Nat × ℚ)
  optSteps : List (Nat × List (Nat × ℚ))
  schedSteps : Nat

/-- One iteration of the inner batch loop of `TaskRunner.train`, for the
batch at index `step` with loss `loss step`. -/
def trainBatchStep (loss : Nat → ℚ) (gradientAccumulationSteps batchTotalStep : Nat)
    (doWarmup : Bool) (st : EpochState) (step : Nat) : EpochState :=
  let cleared : List (Nat × ℚ) := []
  let scaled : ℚ := loss step / (gradientAccumulationSteps : ℚ)
  let grad : List (Nat × ℚ) := cleared ++ [(step, scaled)]
  if (step + 1) % gradientAccumulationSteps == 0 || (step + 1) == batchTotalStep then
    { gradBatches := grad,
      optSteps := st.optSteps ++ [(step, grad)],
      schedSteps := st.schedSteps + (if doWarmup then 1 else 0) }
  else
    { st with gradBatches := grad }

/-- One epoch of the batch loop of `TaskRunner.train` over
`batchTotalStep` batches. -/
def trainEpoch (loss : Nat → ℚ) (gradientAccumulationSteps batchTotalStep : Nat)
    (doWarmup : Bool) : EpochState :=
  (List.range batchTotalStep).foldl
    (trainBatchStep loss gradientAccumulationSteps batchTotalStep doWarmup)
    ⟨[], [], 0⟩

/-!
### The mixed-precision setup `TaskRunner._load_amp_for_fp16`
(src/src/task.py).
-/

structure AmpSetup where
  useAmpFrom : Nat
  fp16 : Bool
  apexLoaded : Bool
  nativeScaler : Bool
  loggedApexMissing : Bool

/-- Model of `TaskRunner._load_amp_for_fp16`, entered with
`args.fp16 = True`.  `torchAtLeast160` is the outcome of the version
comparison and `apexImportable` whether `from apex import amp`
succeeds.  In the version-too-old branch the `finally:` clause runs
whether or not the import succeeded. -/
def loadAmpForFp16 (torchAtLeast160 apexImportable : Bool) : AmpSetup :=
  if torchAtLeast160 then
    { useAmpFrom := 1, fp16 := true, apexLoaded := false,
      nativeScaler := true, loggedApexMissing := false }
  else
    let afterTry : AmpSetup :=
      if apexImportable then
        { useAmpFrom := 2, fp16 := true, apexLoaded := true,
          nativeScaler := false, loggedApexMissing := false }
      else
        { useAmpFrom := 0, fp16 := true, apexLoaded := false,
          nativeScaler := false, loggedApexMissing := true }
    { afterTry with fp16 := false }

/-- Which mixed-precision path the batch loop of `TaskRunner.train`
takes: 1 for native amp, 2 for apex, 0 for plain fp32 training. -/
def ampModeInTrain (fp16 : Bool) (useAmpFrom : Nat) : Nat :=
  if fp16 && useAmpFrom == 1 then 1
  else if fp16 && useAmpFrom == 2 then 2
  else 0

/-!
### The prediction assembly of `TaskRunner._run_eval` (src/src/task.py).
-/

/-- First-occurrence argmax scan: `bi` and `bv` are the best index and
value so far and `i` the index of the head of the remaining list. -/
def argmaxFrom : List ℤ → Nat → Nat → ℤ → Nat
  | [], _, bi, _ => bi
  | x :: xs, i, bi, bv =>
    if bv < x then argmaxFrom xs (i + 1) i x else argmaxFrom xs (i + 1) bi bv

/-- Model of `np.argmax` on a one-dimensional array: the index of the
first maximal element. -/
def npArgmax : List ℤ → Nat
  | [] => 0
  | x :: xs => argmaxFrom xs 1 0 x

/-- Model of the prediction assembly of `_run_eval`: the per-batch logit
rows are stacked with `np.append(..., axis=0)` into an `n × k` matrix,
and then `preds = np.argmax(preds)` is applied with no axis argument,
which flattens the matrix row-major and returns a single scalar index. -/
def runEvalPreds (logits : List (List ℤ)) : Nat := npArgmax logits.flatten

/-- Modelled from the spec: the per-example argmax over the class logits
that the claim describes (`np.argmax(..., axis=1)`), one predicted class
per example. -/
def perExampleArgmax (logits : List (List ℤ)) : List Nat := logits.map npArgmax

/-!
### `get_linear_schedule_with_warmup` (src/src/task.py).
-/

/-- Model of the `lr_lambda` closure of `get_linear_schedule_with_warmup`,
with real arithmetic modelled by `ℚ` and the integer subtractions of the
Python source modelled on `ℤ`. -/
def lrLambda (numWarmupSteps numTrainingSteps current : Nat) : ℚ :=
  if current < numWarmupSteps then
    (current : ℚ) / ((max 1 numWarmupSteps : Nat) : ℚ)
  else
    max 0 ((((numTrainingSteps : ℤ) - (current : ℤ) : ℤ) : ℚ) /
      (((max 1 ((numTrainingSteps : ℤ) - (numWarmupSteps : ℤ)) : ℤ) : ℚ)))

/-!
### `DataProcessor.get_labels` (src/src/data_utils.py).

Python dictionaries with pairwise distinct keys are modelled as
association lists with first-match lookup; both dictionaries built by
`get_labels` have pairwise distinct keys, so first-match and last-match
lookup agree.
-/

/-- First-match lookup in an association list. -/
def dictLookup {α β : Type} [DecidableEq α] : List (α × β) → α → Option β
  | [], _ => none
  | p :: ps, k => if p.1 = k then some p.2 else dictLookup ps k

/-- The first column of every row after the header row; `line[0]` of an
empty row (an `IndexError` in Python) is modelled by the default `""`. -/
def firstColumn (lines : List (List String)) : List String :=
  (lines.drop 1).map (fun line => line.headD "")

/-- The distinct labels collected by `get_labels` into `unique_labels`
(a Python set, modelled as a duplicate-free list). -/
def uniqueLabels (lines : List (List String)) : List String :=
  (firstColumn lines).dedup

/-- The pairs of `label2idx = {k: v for v, k in enumerate(unique_labels)}`. -/
def label2idxPairs (u : List String) : List (String × Nat) :=
  (enumerateFrom 0 u).map (fun p => (p.2, p.1))

/-- The pairs of `idx2label = {v: k for k, v in label2idx.items()}`. -/
def idx2labelPairs (u : List String) : List (Nat × String) :=
  (label2idxPairs u).map (fun p => (p.2, p.1))

/-- Lookup in the `label2idx` dictionary returned by `get_labels`. -/
def label2idxF (lines : List (List String)) (l : String) : Option Nat :=
  dictLookup (label2idxPairs (uniqueLabels lines)) l

/-- Lookup in the `idx2label` dictionary returned by `get_labels`. -/
def idx2labelF (lines : List (List String)) (i : Nat) : Option String :=
  dictLookup (idx2labelPairs (uniqueLabels lines)) i

/-!
### `relation_extraction_data_loader` (src/src/data_utils.py).
-/

inductive SamplerKind
  | random
  | sequential
deriving DecidableEq

structure DataLoaderModel (β : Type) where
  dataset : β
  sampler : SamplerKind
  batchSize : Nat
  pinMemory : Bool

inductive LoaderEffect
  | convertedFeatures
  | builtLoader
deriving DecidableEq

/-- Model of `relation_extraction_data_loader`: `features2tensorsF` is
the (black-box) `features2tensors` conversion, applied before the task
dispatch; the effect trace records which side effects have happened when
the function returns or raises. -/
def relationExtractionDataLoader {α β : Type} (features2tensorsF : α → β)
    (dataset : α) (batchSize : Nat) (task : String) :
    List LoaderEffect × Except String (DataLoaderModel β) :=
  let ds := features2tensorsF dataset
  if task = "train" then
    ([LoaderEffect.convertedFeatures, LoaderEffect.builtLoader],
     Except.ok { dataset := ds, sampler := SamplerKind.random,
                 batchSize := batchSize, pinMemory := true })
  else if task = "test" then
    ([LoaderEffect.convertedFeatures, LoaderEffect.builtLoader],
     Except.ok { dataset := ds, sampler := SamplerKind.sequential,
                 batchSize := batchSize, pinMemory := true })
  else
    ([LoaderEffect.convertedFeatures],
     Except.error ("task argument only support train or test but get " ++ task))

/-!
## Theorems

### Word-splitting lemmas
-/

theorem splitSpaceChars_ne_nil (l : List Char) : splitSpaceChars l ≠ [] := by
  induction l with
  | nil => simp [splitSpaceChars]
  | cons c cs ih =>
    simp only [splitSpaceChars]
    split
    · simp
    · cases h : splitSpaceChars cs with
      | nil => simp
      | cons w ws => simp

theorem no_space_of_mem_splitSpaceChars (l : List Char) :
    ∀ w ∈ splitSpaceChars l, ' ' ∉ w := by
  induction l with
  | nil =>
    intro w hw
    simp [splitSpaceChars] at hw
    simp [hw]
  | cons c cs ih =>
    intro w hw
    simp only [splitSpaceChars] at hw
    by_cases hc : c = ' '
    · rw [if_pos hc] at hw
      rcases List.mem_cons.mp hw with hw | hw
      · simp [hw]
      · exact ih w hw
    · rw [if_neg hc] at hw
      cases h : splitSpaceChars cs with
      | nil => exact absurd h (splitSpaceChars_ne_nil cs)
      | cons v vs =>
        rw [h] at hw
        rcases List.mem_cons.mp hw with hw | hw
        · subst hw
          intro hmem
          rcases List.mem_cons.mp hmem with h1 | h1
          · exact hc h1.symm
          · exact ih v (h ▸ List.mem_cons_self v vs) h1
        · exact ih w (h ▸ List.mem_cons_of_mem v hw)

/-- Splitting after joining recovers the word list, provided the list is
nonempty and no word contains a space (exactly the shape produced by
`splitSpaceChars`). -/
theorem splitSpaceChars_joinSpaceChars (ws : List (List Char))
    (hne : ws ≠ []) (hns : ∀ w ∈ ws, ' ' ∉ w) :
    splitSpaceChars (joinSpaceChars ws) = ws := by
  induction ws with
  | nil => exact absurd rfl hne
  | cons w rest ih =>
    cases rest with
    | nil =>
      simp only [joinSpaceChars]
      have hw : ' ' ∉ w := hns w (List.mem_cons_self w [])
      clear hne hns ih
      induction w with
      | nil => simp [splitSpaceChars]
      | cons c cs ihc =>
        have hc : c ≠ ' ' := fun h => hw (h ▸ List.mem_cons_self c cs)
        have hcs : ' ' ∉ cs := fun h => hw (List.mem_cons_of_mem c h)
        simp only [splitSpaceChars, if_neg hc, ihc hcs]
    | cons v rest' =>
      have hjoin : joinSpaceChars (w :: v :: rest') = w ++ ' ' :: joinSpaceChars (v :: rest') := rfl
      have hrest : splitSpaceChars (joinSpaceChars (v :: rest')) = v :: rest' :=
        ih (by simp) (fun u hu => hns u (List.mem_cons_of_mem w hu))
      have hw : ' ' ∉ w := hns w (List.mem_cons_self w _)
      rw [hjoin]
      clear hne hns ih hjoin
      induction w with
      | nil =>
        simp [splitSpaceChars, hrest]
      | cons c cs ihc =>
        have hc : c ≠ ' ' := fun h => hw (h ▸ List.mem_cons_self c cs)
        have hcs : ' ' ∉ cs := fun h => hw (List.mem_cons_of_mem c h)
        have heq := ihc hcs
        simp only [List.cons_append, splitSpaceChars, if_neg hc, List.append_eq, heq]

/-- String-level round trip: splitting the join of a nonempty list of
space-free words gives the list back. -/
theorem splitSpace_joinSpace (ws : List String)
    (hne : ws ≠ []) (hns : ∀ w ∈ ws, ' ' ∉ w.data) :
    splitSpace (joinSpace ws) = ws := by
  unfold splitSpace joinSpace
  rw [splitSpaceChars_joinSpaceChars (ws.map String.data)
        (by simpa using hne)
        (by intro w hw
            rcases List.mem_map.mp hw with ⟨u, hu, rfl⟩
            exact hns u hu)]
  have h : ((fun w => (⟨w⟩ : String)) ∘ String.data) = id := by
    funext s
    rfl
  rw [List.map_map, h, List.map_id]

theorem splitSpace_ne_nil (s : String) : splitSpace s ≠ [] := by
  unfold splitSpace
  intro h
  exact splitSpaceChars_ne_nil s.data (List.map_eq_nil_iff.mp h)

theorem no_space_of_mem_splitSpace (s : String) :
    ∀ w ∈ splitSpace s, ' ' ∉ w.data := by
  intro w hw
  unfold splitSpace at hw
  rcases List.mem_map.mp hw with ⟨u, hu, rfl⟩
  exact no_space_of_mem_splitSpaceChars s.data u hu

/-!
### Tag-index lemmas
-/

theorem destructure2_eq_some_iff (l : List Nat) (t1 t2 : Nat) :
    destructure2 l = some (t1, t2) ↔ l = [t1, t2] := by
  match l with
  | [] => simp [destructure2]
  | [a] => simp [destructure2]
  | [a, b] => simp [destructure2]
  | a :: b :: c :: rest => simp [destructure2]

theorem destructure2_isSome_of_length_two (l : List Nat) (h : l.length = 2) :
    (destructure2 l).isSome := by
  match l, h with
  | [a, b], _ => rfl

theorem length_filter_enumerateFrom (tags : List String) (ws : List String) :
    ∀ n, ((enumerateFrom n ws).filter (fun p => isTag tags p.2)).length
      = (ws.filter (isTag tags)).length := by
  induction ws with
  | nil => intro n; rfl
  | cons w rest ih =>
    intro n
    simp only [enumerateFrom, List.filter_cons]
    cases h : isTag tags w with
    | true => simp [h, ih (n + 1)]
    | false => simp [h, ih (n + 1)]

theorem tagIdxs_length (tags ws : List String) :
    (tagIdxs tags ws).length = countTags tags ws := by
  unfold tagIdxs countTags
  rw [List.length_map]
  exact length_filter_enumerateFrom tags ws 0

theorem mem_fst_filter_enumerateFrom (tags : List String) (ws : List String) :
    ∀ n i, i ∈ ((enumerateFrom n ws).filter (fun p => isTag tags p.2)).map Prod.fst →
      i < n + ws.length := by
  induction ws with
  | nil => intro n i h; simp [enumerateFrom] at h
  | cons w rest ih =>
    intro n i h
    simp only [enumerateFrom, List.filter_cons] at h
    rcases Bool.eq_false_or_eq_true (isTag tags w) with htag | htag
    · rw [htag, if_pos rfl, List.map_cons] at h
      rcases List.mem_cons.mp h with h0 | h1
      · have h0' : i = n := h0
        simp only [List.length_cons]
        omega
      · have := ih (n + 1) i h1
        simp only [List.length_cons]
        omega
    · rw [htag, if_neg Bool.false_ne_true] at h
      have := ih (n + 1) i h
      simp only [List.length_cons]
      omega

theorem mem_tagIdxs_lt (tags ws : List String) :
    ∀ i ∈ tagIdxs tags ws, i < ws.length := by
  intro i h
  have := mem_fst_filter_enumerateFrom tags ws 0 i h
  omega

theorem tagIdxs_cons_of_isTag (tags : List String) (x : String) (xs : List String)
    (h : isTag tags x = true) :
    ∃ rest, tagIdxs tags (x :: xs) = 0 :: rest := by
  refine ⟨((enumerateFrom 1 xs).filter (fun p => isTag tags p.2)).map Prod.fst, ?_⟩
  unfold tagIdxs
  have he : enumerateFrom 0 (x :: xs) = (0, x) :: enumerateFrom 1 xs := rfl
  rw [he, List.filter_cons]
  simp [h]

theorem countTags_cons (tags : List String) (x : String) (xs : List String) :
    countTags tags (x :: xs)
      = (if isTag tags x then 1 else 0) + countTags tags xs := by
  unfold countTags
  rw [List.filter_cons]
  split
  · simp [Nat.add_comm]
  · simp

theorem countTags_le_dropLast_succ (tags : List String) (ws : List String) :
    countTags tags ws ≤ countTags tags ws.dropLast + 1 := by
  induction ws with
  | nil => simp [countTags]
  | cons x xs ih =>
    cases xs with
    | nil =>
      simp only [List.dropLast_single, countTags_cons]
      split <;> simp [countTags]
    | cons y ys =>
      have hdl : (x :: y :: ys).dropLast = x :: (y :: ys).dropLast := rfl
      rw [hdl]
      simp only [countTags_cons] at ih ⊢
      omega

theorem countTags_le_length (tags ws : List String) :
    countTags tags ws ≤ ws.length :=
  List.length_filter_le _ _

theorem popEnds_length (ws : List String) (t1 t2 : Nat) :
    (popEnds ws t1 t2).length = ws.length - 1 := by
  unfold popEnds
  split
  · simp [List.length_tail]
  · simp [List.length_dropLast]

theorem mem_popEnds (ws : List String) (t1 t2 : Nat) :
    ∀ w ∈ popEnds ws t1 t2, w ∈ ws := by
  unfold popEnds
  split
  · intro w hw
    exact List.mem_of_mem_tail hw
  · intro w hw
    exact (List.dropLast_sublist ws).subset hw

/-- When the tag-index destructuring succeeded, the popped word list
still contains a boundary-tag word: popping the first word happens only
when the first tag is not at position 0, and popping the last word
removes at most one of the two tags. -/
theorem one_le_countTags_popEnds (tags ws : List String) (t1 t2 : Nat)
    (h : tagIdxs tags ws = [t1, t2]) :
    1 ≤ countTags tags (popEnds ws t1 t2) := by
  have hcount : countTags tags ws = 2 := by
    rw [← tagIdxs_length, h]
    rfl
  have ht2 : t2 < ws.length :=
    mem_tagIdxs_lt tags ws t2 (h ▸ (by simp : t2 ∈ [t1, t2]))
  unfold popEnds
  split
  case isTrue hcond =>
    have ht1 : 0 < t1 := by omega
    cases ws with
    | nil => simp at ht2
    | cons x xs =>
      by_cases hx : isTag tags x
      · obtain ⟨rest, hr⟩ := tagIdxs_cons_of_isTag tags x xs hx
        rw [h] at hr
        injection hr with h1 h2
        omega
      · have hc := countTags_cons tags x xs
        rw [if_neg hx] at hc
        have : countTags tags xs = 2 := by omega
        simp only [List.tail_cons]
        omega
  case isFalse hcond =>
    have := countTags_le_dropLast_succ tags ws
    omega

/-!
### Truncation-loop lemmas
-/

theorem splitSpace_joinSpace_popEnds (s : String) (t1 t2 : Nat)
    (h2 : 2 ≤ (splitSpace s).length) :
    splitSpace (joinSpace (popEnds (splitSpace s) t1 t2)) = popEnds (splitSpace s) t1 t2 := by
  apply splitSpace_joinSpace
  · have hlen := popEnds_length (splitSpace s) t1 t2
    intro hnil
    rw [hnil] at hlen
    simp at hlen
    omega
  · intro w hw
    exact no_space_of_mem_splitSpace s w (mem_popEnds _ t1 t2 w hw)

theorem two_le_length_of_tagIdxs_pair (tags ws : List String) (t1 t2 : Nat)
    (h : tagIdxs tags ws = [t1, t2]) : 2 ≤ ws.length := by
  have h1 := tagIdxs_length tags ws
  rw [h] at h1
  have h2 := countTags_le_length tags ws
  simp at h1
  omega

/-- Whenever the Sep-processor loop returns normally, the combined
tokenized length of the returned pair is within `maxSeqLen`, and a text
that contained a boundary-tag word when the loop started still contains
one. -/
theorem sepLoop_ok (tags : List String) (tokLen : String → Nat) (maxSeqLen : Nat) :
    ∀ fuel a b a' b',
      sepLoop tags tokLen maxSeqLen fuel a b = some (Except.ok (a', b')) →
      tokLen a' + tokLen b' ≤ maxSeqLen ∧
      (1 ≤ countTags tags (splitSpace a) → 1 ≤ countTags tags (splitSpace a')) ∧
      (1 ≤ countTags tags (splitSpace b) → 1 ≤ countTags tags (splitSpace b')) := by
  intro fuel
  induction fuel with
  | zero =>
    intro a b a' b' h
    simp [sepLoop] at h
  | succ fuel ih =>
    intro a b a' b' h
    rw [sepLoop] at h
    by_cases hcond : maxSeqLen < tokLen a + tokLen b
    · rw [if_pos hcond] at h
      rcases hd1 : destructure2 (tagIdxs tags (splitSpace a)) with - | ⟨t1, t2⟩ <;>
        rcases hd2 : destructure2 (tagIdxs tags (splitSpace b)) with - | ⟨t3, t4⟩ <;>
        simp only [sepStep, hd1, hd2] at h
      · simp at h
      · simp at h
      · simp at h
      · have htag1 : tagIdxs tags (splitSpace a) = [t1, t2] :=
          (destructure2_eq_some_iff _ _ _).mp hd1
        have htag2 : tagIdxs tags (splitSpace b) = [t3, t4] :=
          (destructure2_eq_some_iff _ _ _).mp hd2
        have hlen1 := two_le_length_of_tagIdxs_pair tags _ t1 t2 htag1
        have hlen2 := two_le_length_of_tagIdxs_pair tags _ t3 t4 htag2
        have hrt1 := splitSpace_joinSpace_popEnds a t1 t2 hlen1
        have hrt2 := splitSpace_joinSpace_popEnds b t3 t4 hlen2
        obtain ⟨hmax, hpa, hpb⟩ := ih _ _ a' b' h
        refine ⟨hmax, fun _ => ?_, fun _ => ?_⟩
        · exact hpa (by rw [hrt1]; exact one_le_countTags_popEnds tags _ t1 t2 htag1)
        · exact hpb (by rw [hrt2]; exact one_le_countTags_popEnds tags _ t3 t4 htag2)
    · rw [if_neg hcond] at h
      have hpair : (a, b) = (a', b') := Except.ok.inj (Option.some.inj h)
      have ha : a = a' := congrArg Prod.fst hpair
      have hb : b = b' := congrArg Prod.snd hpair
      subst ha
      subst hb
      exact ⟨Nat.le_of_not_lt hcond, fun hx => hx, fun hx => hx⟩

/-- Whenever the Uni-processor loop returns normally, the tokenized
length of the returned text is within `maxSeqLen`, and the text keeps a
boundary-tag word if it had one. -/
theorem uniLoop_ok (tags : List String) (tokLen : String → Nat) (maxSeqLen : Nat) :
    ∀ fuel a a',
      uniLoop tags tokLen maxSeqLen fuel a = some (Except.ok a') →
      tokLen a' ≤ maxSeqLen ∧
      (1 ≤ countTags tags (splitSpace a) → 1 ≤ countTags tags (splitSpace a')) := by
  intro fuel
  induction fuel with
  | zero =>
    intro a a' h
    simp [uniLoop] at h
  | succ fuel ih =>
    intro a a' h
    rw [uniLoop] at h
    by_cases hcond : maxSeqLen < tokLen a
    · rw [if_pos hcond] at h
      rcases hd1 : destructure2 (tagIdxs tags (splitSpace a)) with - | ⟨t1, t2⟩ <;>
        simp only [uniStep, hd1] at h
      · simp at h
      · have htag1 : tagIdxs tags (splitSpace a) = [t1, t2] :=
          (destructure2_eq_some_iff _ _ _).mp hd1
        have hlen1 := two_le_length_of_tagIdxs_pair tags _ t1 t2 htag1
        have hrt1 := splitSpace_joinSpace_popEnds a t1 t2 hlen1
        obtain ⟨hmax, hpa⟩ := ih _ a' h
        refine ⟨hmax, fun _ => ?_⟩
        exact hpa (by rw [hrt1]; exact one_le_countTags_popEnds tags _ t1 t2 htag1)
    · rw [if_neg hcond] at h
      have ha : a = a' := Except.ok.inj (Option.some.inj h)
      subst ha
      exact ⟨Nat.le_of_not_lt hcond, fun hx => hx⟩

/-- Fuel bounded below by the word count of the first text guarantees the
Sep-processor loop finishes (normally or with the `ValueError`): every
iteration removes one word from each text, and a text too short to hold
two tags makes the next destructuring raise. -/
theorem sepLoop_isSome (tags : List String) (tokLen : String → Nat) (maxSeqLen : Nat) :
    ∀ fuel a b, (splitSpace a).length ≤ fuel →
      (sepLoop tags tokLen maxSeqLen fuel a b).isSome := by
  intro fuel
  induction fuel with
  | zero =>
    intro a b h
    have h1 : 0 < (splitSpace a).length := List.length_pos.mpr (splitSpace_ne_nil a)
    omega
  | succ fuel ih =>
    intro a b h
    rw [sepLoop]
    by_cases hcond : maxSeqLen < tokLen a + tokLen b
    · rw [if_pos hcond]
      rcases hd1 : destructure2 (tagIdxs tags (splitSpace a)) with - | ⟨t1, t2⟩ <;>
        rcases hd2 : destructure2 (tagIdxs tags (splitSpace b)) with - | ⟨t3, t4⟩ <;>
        simp only [sepStep, hd1, hd2]
      · rfl
      · rfl
      · rfl
      · have htag1 : tagIdxs tags (splitSpace a) = [t1, t2] :=
          (destructure2_eq_some_iff _ _ _).mp hd1
        have hlen1 := two_le_length_of_tagIdxs_pair tags _ t1 t2 htag1
        apply ih
        rw [splitSpace_joinSpace_popEnds a t1 t2 hlen1, popEnds_length]
        omega
    · rw [if_neg hcond]
      rfl

/-- Fuel bounded below by the word count of the text guarantees the
Uni-processor loop finishes. -/
theorem uniLoop_isSome (tags : List String) (tokLen : String → Nat) (maxSeqLen : Nat) :
    ∀ fuel a, (splitSpace a).length ≤ fuel →
      (uniLoop tags tokLen maxSeqLen fuel a).isSome := by
  intro fuel
  induction fuel with
  | zero =>
    intro a h
    have h1 : 0 < (splitSpace a).length := List.length_pos.mpr (splitSpace_ne_nil a)
    omega
  | succ fuel ih =>
    intro a h
    rw [uniLoop]
    by_cases hcond : maxSeqLen < tokLen a
    · rw [if_pos hcond]
      rcases hd1 : destructure2 (tagIdxs tags (splitSpace a)) with - | ⟨t1, t2⟩ <;>
        simp only [uniStep, hd1]
      · rfl
      · have htag1 : tagIdxs tags (splitSpace a) = [t1, t2] :=
          (destructure2_eq_some_iff _ _ _).mp hd1
        have hlen1 := two_le_length_of_tagIdxs_pair tags _ t1 t2 htag1
        apply ih
        rw [splitSpace_joinSpace_popEnds a t1 t2 hlen1, popEnds_length]
        omega
    · rw [if_neg hcond]
      rfl

/-- The Sep-processor loop never reaches the `ValueError` branch when
every text pair entering an iteration carries exactly two boundary-tag
words per text. -/
theorem sepLoop_ne_error (tags : List String) (tokLen : String → Nat) (maxSeqLen : Nat) :
    ∀ fuel a b,
      (∀ p ∈ sepReach tags tokLen maxSeqLen fuel a b,
        countTags tags (splitSpace p.1) = 2 ∧ countTags tags (splitSpace p.2) = 2) →
      sepLoop tags tokLen maxSeqLen fuel a b ≠ some (Except.error ()) := by
  intro fuel
  induction fuel with
  | zero =>
    intro a b hreach
    simp [sepLoop]
  | succ fuel ih =>
    intro a b hreach
    rw [sepLoop]
    by_cases hcond : maxSeqLen < tokLen a + tokLen b
    · rw [if_pos hcond]
      have hab := hreach (a, b) (by
        rw [sepReach, if_pos hcond]
        exact List.mem_cons_self _ _)
      have hd1 : (destructure2 (tagIdxs tags (splitSpace a))).isSome := by
        apply destructure2_isSome_of_length_two
        rw [tagIdxs_length]
        exact hab.1
      have hd2 : (destructure2 (tagIdxs tags (splitSpace b))).isSome := by
        apply destructure2_isSome_of_length_two
        rw [tagIdxs_length]
        exact hab.2
      obtain ⟨⟨t1, t2⟩, he1⟩ := Option.isSome_iff_exists.mp hd1
      obtain ⟨⟨t3, t4⟩, he2⟩ := Option.isSome_iff_exists.mp hd2
      simp only [sepStep, he1, he2]
      apply ih
      intro p hp
      apply hreach
      rw [sepReach, if_pos hcond]
      simp only [sepStep, he1, he2]
      exact List.mem_cons_of_mem _ hp
    · rw [if_neg hcond]
      simp

/-- The Uni-processor loop never reaches the `ValueError` branch when
every text entering an iteration carries exactly two boundary-tag words. -/
theorem uniLoop_ne_error (tags : List String) (tokLen : String → Nat) (maxSeqLen : Nat) :
    ∀ fuel a,
      (∀ s ∈ uniReach tags tokLen maxSeqLen fuel a,
        countTags tags (splitSpace s) = 2) →
      uniLoop tags tokLen maxSeqLen fuel a ≠ some (Except.error ()) := by
  intro fuel
  induction fuel with
  | zero =>
    intro a hreach
    simp [uniLoop]
  | succ fuel ih =>
    intro a hreach
    rw [uniLoop]
    by_cases hcond : maxSeqLen < tokLen a
    · rw [if_pos hcond]
      have ha := hreach a (by
        rw [uniReach, if_pos hcond]
        exact List.mem_cons_self _ _)
      have hd1 : (destructure2 (tagIdxs tags (splitSpace a))).isSome := by
        apply destructure2_isSome_of_length_two
        rw [tagIdxs_length]
        exact ha
      obtain ⟨⟨t1, t2⟩, he1⟩ := Option.isSome_iff_exists.mp hd1
      simp only [uniStep, he1]
      apply ih
      intro s hs
      apply hreach
      rw [uniReach, if_pos hcond]
      simp only [uniStep, he1]
      exact List.mem_cons_of_mem _ hs
    · rw [if_neg hcond]
      simp

/-!
### Claim theorems for the truncation heuristic
-/

/-- C1 (amended): for an input pair whose texts, after the bracket-star
preprocessing, each contain exactly two boundary-tag words and whose
combined tokenized length exceeds `max_seq_len`, whenever
`_process_seq_len` returns normally the returned pair has combined
tokenized length at most `max_seq_len`, and each returned text still
contains at least one boundary-tag word.  (Preservation of both tag
words fails on the code: see the counterexample.) -/
theorem C1_trunc_len_bound_and_tag_survival
    (tags : List String) (tokLen : String → Nat) (maxSeqLen : Nat)
    (a b a' b' : String)
    (h2a : countTags tags (splitSpace (resub a)) = 2)
    (h2b : countTags tags (splitSpace (resub b)) = 2)
    (_hlong : maxSeqLen < tokLen (resub a) + tokLen (resub b))
    (hok : processSeqLenSep tags tokLen maxSeqLen a b = some (Except.ok (a', b'))) :
    tokLen a' + tokLen b' ≤ maxSeqLen ∧
    1 ≤ countTags tags (splitSpace a') ∧
    1 ≤ countTags tags (splitSpace b') := by
  unfold processSeqLenSep at hok
  obtain ⟨hm, hpa, hpb⟩ := sepLoop_ok tags tokLen maxSeqLen _ (resub a) (resub b) a' b' hok
  exact ⟨hm, hpa (by omega), hpb (by omega)⟩

/-- Witness for C1: a pair that is truncated once and returns with both
texts still holding their tags. -/
theorem C1_trunc_len_bound_and_tag_survival_witness :
    wordCountTok "p q es x ee r" + wordCountTok "z es y ee" ≤ 10 ∧
    1 ≤ countTags SPEC_TAGS (splitSpace "p q es x ee r") ∧
    1 ≤ countTags SPEC_TAGS (splitSpace "z es y ee") :=
  C1_trunc_len_bound_and_tag_survival SPEC_TAGS wordCountTok 10
    "p q es x ee r s" "z es y ee w" "p q es x ee r" "z es y ee"
    (by decide) (by decide) (by decide) rfl

/-- C1 counterexample: with the whitespace tokenizer and
`max_seq_len = 4`, the pair `("es x ee", "es y ee")` satisfies the
claim's precondition (each text has exactly two boundary-tag words, the
combined tokenized length 6 exceeds 4), yet `_process_seq_len` returns
`("es x", "es y")`, in which each text retains only one of its two
boundary-tag words: the second tag of each text was popped away. -/
theorem C1_trunc_drops_closing_tags_cex :
    countTags SPEC_TAGS (splitSpace "es x ee") = 2 ∧
    countTags SPEC_TAGS (splitSpace "es y ee") = 2 ∧
    4 < wordCountTok "es x ee" + wordCountTok "es y ee" ∧
    processSeqLenSep SPEC_TAGS wordCountTok 4 "es x ee" "es y ee" =
      some (Except.ok ("es x", "es y")) ∧
    countTags SPEC_TAGS (splitSpace "es x") = 1 ∧
    countTags SPEC_TAGS (splitSpace "es y") = 1 :=
  ⟨by decide, by decide, by decide, rfl, by decide, by decide⟩

/-- C2: under the precondition that every text entering an iteration of
the truncation loop contains exactly two boundary-tag words, the
two-element destructuring of the tag-index list succeeds in every
iteration: the `ValueError` branch is unreachable, for both the Sep and
the Uni processor. -/
theorem C2_destructure_error_unreachable
    (tags : List String) (tokLen : String → Nat) (maxSeqLen fuel : Nat)
    (a b c : String)
    (hsep : ∀ p ∈ sepReach tags tokLen maxSeqLen fuel a b,
      countTags tags (splitSpace p.1) = 2 ∧ countTags tags (splitSpace p.2) = 2)
    (huni : ∀ s ∈ uniReach tags tokLen maxSeqLen fuel c,
      countTags tags (splitSpace s) = 2) :
    sepLoop tags tokLen maxSeqLen fuel a b ≠ some (Except.error ()) ∧
    uniLoop tags tokLen maxSeqLen fuel c ≠ some (Except.error ()) :=
  ⟨sepLoop_ne_error tags tokLen maxSeqLen fuel a b hsep,
   uniLoop_ne_error tags tokLen maxSeqLen fuel c huni⟩

/-- Witness for C2 at a concrete input whose single entered iteration
carries exactly two tags per text. -/
theorem C2_destructure_error_unreachable_witness :
    sepLoop SPEC_TAGS wordCountTok 5 7 "es x ee q" "es y ee" ≠ some (Except.error ()) ∧
    uniLoop SPEC_TAGS wordCountTok 5 7 "q es x ee r s" ≠ some (Except.error ()) :=
  C2_destructure_error_unreachable SPEC_TAGS wordCountTok 5 7
    "es x ee q" "es y ee" "q es x ee r s"
    (by
      intro p hp
      rw [show sepReach SPEC_TAGS wordCountTok 5 7 "es x ee q" "es y ee" =
            [("es x ee q", "es y ee")] from rfl] at hp
      rcases List.mem_cons.mp hp with h | h
      · subst h
        exact ⟨by decide, by decide⟩
      · exact absurd h (List.not_mem_nil p))
    (by
      intro s hs
      rw [show uniReach SPEC_TAGS wordCountTok 5 7 "q es x ee r s" =
            ["q es x ee r s"] from rfl] at hs
      rcases List.mem_cons.mp hs with h | h
      · subst h
        decide
      · exact absurd h (List.not_mem_nil s))

/-- C6 (amended): for texts unchanged by the bracket-star preprocessing
substitution, `_process_seq_len` returns its inputs unchanged whenever
the tokenized length does not exceed `max_seq_len`, for both the Sep and
the Uni processor.  (Without that qualification the claim fails: the
substitution rewrites even short texts; see the counterexample.) -/
theorem C6_short_inputs_unchanged
    (tags : List String) (tokLen : String → Nat) (maxSeqLen : Nat)
    (a b : String) (hra : resub a = a) (hrb : resub b = b) :
    (tokLen a + tokLen b ≤ maxSeqLen →
      processSeqLenSep tags tokLen maxSeqLen a b = some (Except.ok (a, b))) ∧
    (tokLen a ≤ maxSeqLen →
      processSeqLenUni tags tokLen maxSeqLen a = some (Except.ok a)) := by
  constructor
  · intro hlen
    show sepLoop tags tokLen maxSeqLen
      ((splitSpace (resub a)).length + (splitSpace (resub b)).length + 1)
      (resub a) (resub b) = some (Except.ok (a, b))
    rw [hra, hrb, sepLoop, if_neg (by omega)]
  · intro hlen
    show uniLoop tags tokLen maxSeqLen
      ((splitSpace (resub a)).length + 1) (resub a) = some (Except.ok a)
    rw [hra, uniLoop, if_neg (by omega)]

/-- Witness for C6 at a concrete short input free of the preprocessing
patterns. -/
theorem C6_short_inputs_unchanged_witness :
    processSeqLenSep SPEC_TAGS wordCountTok 100 "es x ee" "es y ee" =
      some (Except.ok ("es x ee", "es y ee")) ∧
    processSeqLenUni SPEC_TAGS wordCountTok 100 "es x ee" =
      some (Except.ok "es x ee") :=
  ⟨(C6_short_inputs_unchanged SPEC_TAGS wordCountTok 100 "es x ee" "es y ee"
      rfl rfl).1 (by decide),
   (C6_short_inputs_unchanged SPEC_TAGS wordCountTok 100 "es x ee" "es y ee"
      rfl rfl).2 (by decide)⟩

/-- C6 counterexample: the text `"[ * * a"` tokenizes to 4 words (far
below `max_seq_len = 100`), yet `_process_seq_len` returns `" a"`, not
the input: the bracket-star substitution modifies the text although the
example does not exceed the maximum token length. -/
theorem C6_short_input_modified_cex :
    wordCountTok "[ * * a" + wordCountTok "b" ≤ 100 ∧
    processSeqLenSep SPEC_TAGS wordCountTok 100 "[ * * a" "b" =
      some (Except.ok (" a", "b")) ∧
    " a" ≠ "[ * * a" :=
  ⟨by decide, rfl, by decide⟩

/-- C8: the truncation loop terminates for every input and every
tokenizer whose token count never increases when a word is removed and
which maps the empty text to zero tokens: with fuel at least the word
count of the first text, the loop either returns normally or raises, for
both the Sep and the Uni processor. -/
theorem C8_truncation_loop_terminates
    (tags : List String) (tokLen : String → Nat)
    (_hmono : ∀ (ws : List String) (i : Nat),
      tokLen (joinSpace (ws.eraseIdx i)) ≤ tokLen (joinSpace ws))
    (_hempty : tokLen "" = 0)
    (maxSeqLen fuel : Nat) (a b : String)
    (hfa : (splitSpace a).length ≤ fuel) :
    (sepLoop tags tokLen maxSeqLen fuel a b).isSome ∧
    (uniLoop tags tokLen maxSeqLen fuel a).isSome :=
  ⟨sepLoop_isSome tags tokLen maxSeqLen fuel a b hfa,
   uniLoop_isSome tags tokLen maxSeqLen fuel a hfa⟩

/-- Witness for C8 with the constantly-zero tokenizer, which trivially
satisfies both tokenizer hypotheses. -/
theorem C8_truncation_loop_terminates_witness :
    (sepLoop SPEC_TAGS (fun _ => 0) 4 3 "p q r" "s").isSome ∧
    (uniLoop SPEC_TAGS (fun _ => 0) 4 3 "p q r").isSome :=
  C8_truncation_loop_terminates SPEC_TAGS (fun _ => 0)
    (fun _ _ => Nat.le_refl 0) rfl 4 3 "p q r" "s" (by decide)

/-!
### Claim theorems for the training orchestration
-/

/-- C3: evaluation of the batch loop at the failing input
`gradient_accumulation_steps = 2` with an epoch of 2 batches of loss 1.
The loss of each batch is divided by `gradient_accumulation_steps`, and
the only optimizer update happens at step 1, where `(step + 1)` is a
multiple of `gradient_accumulation_steps`, as the claim says; but the
gradient it consumes holds only batch 1's contribution `(1, 1/2)`,
because `self.model.zero_grad()` runs at the top of every batch
iteration and erased batch 0's gradient.  The claim's requirement that
the gradients of all batches since the previous update contribute to the
step (here `[(0, 1/2), (1, 1/2)]`) is violated by the code. -/
theorem C3_zero_grad_defeats_accumulation :
    (trainEpoch (fun _ => 1) 2 2 true).optSteps =
      [(1, [(1, (1 : ℚ) / ((2 : ℕ) : ℚ))])] ∧
    (trainEpoch (fun _ => 1) 2 2 true).schedSteps = 1 ∧
    (trainEpoch (fun _ => 1) 2 2 true).optSteps.map (fun p => p.2.map Prod.fst) = [[1]] ∧
    [[1]] ≠ [[0, 1]] :=
  ⟨rfl, by decide, by decide, by decide⟩

/-- C4: evaluation of the fp16 setup at the failing configuration, torch
older than 1.6.0 with apex importable.  Apex is selected
(`_use_amp_for_fp16_from = 2` and the apex module is loaded), but the
`finally:` clause of `_load_amp_for_fp16` then unconditionally sets
`args.fp16 = False`, so the training loop takes the plain fp32 path
(mode 0): fp16 does not proceed using apex, and fp16 ends up disabled
although a backend was available, contrary to the claim.  The native
branch and the neither-backend branch behave as the claim says. -/
theorem C4_finally_clause_disables_apex_fp16 :
    loadAmpForFp16 false true =
      { useAmpFrom := 2, fp16 := false, apexLoaded := true,
        nativeScaler := false, loggedApexMissing := false } ∧
    ampModeInTrain (loadAmpForFp16 false true).fp16
      (loadAmpForFp16 false true).useAmpFrom = 0 ∧
    ampModeInTrain (loadAmpForFp16 true true).fp16
      (loadAmpForFp16 true true).useAmpFrom = 1 ∧
    ampModeInTrain (loadAmpForFp16 true false).fp16
      (loadAmpForFp16 true false).useAmpFrom = 1 ∧
    (loadAmpForFp16 false false).fp16 = false ∧
    (loadAmpForFp16 false false).useAmpFrom = 0 :=
  ⟨rfl, rfl, rfl, rfl, rfl, rfl⟩

/-- C5: evaluation of the prediction assembly at the failing input of
two examples with two classes each.  `np.argmax(preds)` with no axis
argument flattens the 2-by-2 logit matrix and returns the single scalar
index 2 of its overall maximum, not the length-2 vector `[1, 0]` of
per-example argmaxes that the claim describes (2 is not even a valid
class index for 2 classes). -/
theorem C5_argmax_without_axis_is_scalar :
    runEvalPreds [[0, 1], [9, 2]] = 2 ∧
    perExampleArgmax [[0, 1], [9, 2]] = [1, 0] ∧
    ¬ 2 < 2 :=
  ⟨by decide, by decide, by decide⟩

/-!
### Claim theorem for the learning-rate schedule
-/

/-- C7: the multiplier of `get_linear_schedule_with_warmup` is the
claimed linear-warmup/linear-decay shape: before `num_warmup_steps` it
equals `current / max 1 warmup`, from `num_warmup_steps` on it equals
`max 0 ((training - current) / max 1 (training - warmup))`; when
`warmup ≤ training` it lies in `[0, 1]`, it is nondecreasing during
warmup, nonincreasing afterwards, and zero at and after
`num_training_steps`. -/
theorem C7_linear_warmup_then_linear_decay (W T c d : ℕ) :
    (c < W → lrLambda W T c = (c : ℚ) / ((max 1 W : ℕ) : ℚ)) ∧
    (W ≤ c → lrLambda W T c =
      max 0 ((((T : ℤ) - (c : ℤ) : ℤ) : ℚ) /
        (((max 1 ((T : ℤ) - (W : ℤ)) : ℤ) : ℚ)))) ∧
    (W ≤ T → 0 ≤ lrLambda W T c ∧ lrLambda W T c ≤ 1) ∧
    (c ≤ d → d < W → lrLambda W T c ≤ lrLambda W T d) ∧
    (W ≤ c → c ≤ d → lrLambda W T d ≤ lrLambda W T c) ∧
    (W ≤ T → T ≤ c → lrLambda W T c = 0) := by
  have hWpos : (0 : ℚ) < ((max 1 W : ℕ) : ℚ) := by
    have : 1 ≤ max 1 W := le_max_left 1 W
    exact_mod_cast Nat.lt_of_lt_of_le Nat.zero_lt_one this
  have hDpos : (0 : ℚ) < (((max 1 ((T : ℤ) - (W : ℤ)) : ℤ) : ℚ)) := by
    have : (1 : ℤ) ≤ max 1 ((T : ℤ) - (W : ℤ)) := le_max_left _ _
    exact_mod_cast lt_of_lt_of_le Int.zero_lt_one this
  refine ⟨?_, ?_, ?_, ?_, ?_, ?_⟩
  · intro h
    unfold lrLambda
    rw [if_pos h]
  · intro h
    unfold lrLambda
    rw [if_neg (Nat.not_lt.mpr h)]
  · intro hWT
    unfold lrLambda
    by_cases h : c < W
    · rw [if_pos h]
      constructor
      · exact div_nonneg (by exact_mod_cast Nat.zero_le c) hWpos.le
      · rw [div_le_one hWpos]
        exact_mod_cast Nat.le_of_lt (Nat.lt_of_lt_of_le h (le_max_right 1 W))
    · rw [if_neg h]
      constructor
      · exact le_max_left 0 _
      · apply max_le zero_le_one
        rw [div_le_one hDpos]
        have h1 : (T : ℤ) - (c : ℤ) ≤ (T : ℤ) - (W : ℤ) := by
          have : (W : ℤ) ≤ (c : ℤ) := by exact_mod_cast Nat.not_lt.mp h
          omega
        have h2 : (T : ℤ) - (W : ℤ) ≤ max 1 ((T : ℤ) - (W : ℤ)) := le_max_right _ _
        exact_mod_cast le_trans h1 h2
  · intro hcd hdW
    have hcW : c < W := Nat.lt_of_le_of_lt hcd hdW
    unfold lrLambda
    rw [if_pos hcW, if_pos hdW]
    rw [div_le_div_iff_of_pos_right hWpos]
    exact_mod_cast hcd
  · intro hWc hcd
    have hWd : W ≤ d := Nat.le_trans hWc hcd
    unfold lrLambda
    rw [if_neg (Nat.not_lt.mpr hWc), if_neg (Nat.not_lt.mpr hWd)]
    apply max_le_max (le_refl (0 : ℚ))
    rw [div_le_div_iff_of_pos_right hDpos]
    have : (T : ℤ) - (d : ℤ) ≤ (T : ℤ) - (c : ℤ) := by
      have : (c : ℤ) ≤ (d : ℤ) := by exact_mod_cast hcd
      omega
    exact_mod_cast this
  · intro hWT hTc
    have hWc : W ≤ c := Nat.le_trans hWT hTc
    unfold lrLambda
    rw [if_neg (Nat.not_lt.mpr hWc)]
    apply max_eq_left
    apply div_nonpos_iff.mpr
    apply Or.inr
    constructor
    · have : (T : ℤ) ≤ (c : ℤ) := by exact_mod_cast hTc
      have hle : (T : ℤ) - (c : ℤ) ≤ 0 := by omega
      exact_mod_cast hle
    · exact hDpos.le

/-- Witness for C7 at `warmup = 2`, `training = 4`, evaluating both
phases, the bounds, the monotonicity in each phase, and the zero tail. -/
theorem C7_linear_warmup_then_linear_decay_witness :
    lrLambda 2 4 1 = (1 : ℚ) / 2 ∧
    lrLambda 2 4 3 = (1 : ℚ) / 2 ∧
    (0 ≤ lrLambda 2 4 3 ∧ lrLambda 2 4 3 ≤ 1) ∧
    lrLambda 2 4 0 ≤ lrLambda 2 4 1 ∧
    lrLambda 2 4 3 ≤ lrLambda 2 4 2 ∧
    lrLambda 2 4 5 = 0 := by
  refine ⟨?_, ?_, ?_, ?_, ?_, ?_⟩
  · rw [(C7_linear_warmup_then_linear_decay 2 4 1 1).1 (by decide)]
    norm_num
  · rw [(C7_linear_warmup_then_linear_decay 2 4 3 3).2.1 (by decide)]
    norm_num
  · exact (C7_linear_warmup_then_linear_decay 2 4 3 3).2.2.1 (by decide)
  · exact (C7_linear_warmup_then_linear_decay 2 4 0 1).2.2.2.1 (by decide) (by decide)
  · exact (C7_linear_warmup_then_linear_decay 2 4 2 3).2.2.2.2.1 (by decide) (by decide)
  · exact (C7_linear_warmup_then_linear_decay 2 4 5 5).2.2.2.2.2 (by decide) (by decide)

/-!
### Label-dictionary lemmas and claim theorems
-/

theorem idx2labelPairs_eq_enumerateFrom (u : List String) :
    idx2labelPairs u = enumerateFrom 0 u := by
  unfold idx2labelPairs label2idxPairs
  rw [List.map_map]
  have hcomp : ((fun p : String × Nat => (p.2, p.1)) ∘ fun p : Nat × String => (p.2, p.1)) =
      id := funext fun p => rfl
  rw [hcomp, List.map_id]

theorem dictLookup_enumerateFrom (u : List String) :
    ∀ n i, dictLookup (enumerateFrom n u) (n + i) = u[i]? := by
  induction u with
  | nil =>
    intro n i
    simp [enumerateFrom, dictLookup]
  | cons x xs ih =>
    intro n i
    cases i with
    | zero =>
      simp [enumerateFrom, dictLookup]
    | succ j =>
      have hne : n ≠ n + (j + 1) := by omega
      have hstep : n + (j + 1) = (n + 1) + j := by omega
      simp only [enumerateFrom, dictLookup, if_neg hne, List.getElem?_cons_succ]
      rw [hstep]
      exact ih (n + 1) j

theorem dictLookup_swapped_enumerateFrom (u : List String) (hnd : u.Nodup) :
    ∀ n i (h : i < u.length),
      dictLookup ((enumerateFrom n u).map (fun p => (p.2, p.1))) (u.get ⟨i, h⟩)
        = some (n + i) := by
  induction u with
  | nil =>
    intro n i h
    simp at h
  | cons x xs ih =>
    intro n i h
    cases i with
    | zero =>
      simp [enumerateFrom, dictLookup]
    | succ j =>
      have hj : j < xs.length := by
        simp at h
        omega
      have hget : (x :: xs).get ⟨j + 1, h⟩ = xs.get ⟨j, hj⟩ := rfl
      have hxmem : xs.get ⟨j, hj⟩ ∈ xs := List.get_mem xs j hj
      have hxne : x ≠ xs.get ⟨j, hj⟩ := by
        intro hx
        exact (List.nodup_cons.mp hnd).1 (hx ▸ hxmem)
      have hrec := ih (List.nodup_cons.mp hnd).2 (n + 1) j hj
      simp only [enumerateFrom, List.map_cons, dictLookup, hget, if_neg hxne]
      rw [hrec]
      congr 1
      omega

/-- C9: `get_labels` returns mutually inverse mappings: composing
`label2idx` then `idx2label` on any collected unique label is the
identity, composing `idx2label` then `label2idx` on any assigned index
is the identity, and the assigned indices are exactly `0 .. n-1` where
`n` is the number of unique labels of the first column below the header. -/
theorem C9_get_labels_mutually_inverse (lines : List (List String)) :
    (∀ l ∈ uniqueLabels lines,
      (label2idxF lines l).bind (idx2labelF lines) = some l) ∧
    (∀ i, i < (uniqueLabels lines).length →
      (idx2labelF lines i).bind (label2idxF lines) = some i) ∧
    (∀ i, (idx2labelF lines i).isSome ↔ i < (uniqueLabels lines).length) := by
  have hnd : (uniqueLabels lines).Nodup := List.nodup_dedup _
  have hidx : ∀ i, idx2labelF lines i = (uniqueLabels lines)[i]? := by
    intro i
    unfold idx2labelF
    rw [idx2labelPairs_eq_enumerateFrom]
    have := dictLookup_enumerateFrom (uniqueLabels lines) 0 i
    rwa [Nat.zero_add] at this
  have hlab : ∀ i (h : i < (uniqueLabels lines).length),
      label2idxF lines ((uniqueLabels lines).get ⟨i, h⟩) = some i := by
    intro i h
    unfold label2idxF label2idxPairs
    have := dictLookup_swapped_enumerateFrom (uniqueLabels lines) hnd 0 i h
    rwa [Nat.zero_add] at this
  refine ⟨?_, ?_, ?_⟩
  · intro l hl
    obtain ⟨i, h, hget⟩ := List.mem_iff_getElem.mp hl
    have hget' : (uniqueLabels lines).get ⟨i, h⟩ = l := hget
    rw [← hget', hlab i h]
    show idx2labelF lines i = some ((uniqueLabels lines).get ⟨i, h⟩)
    rw [hidx i, List.getElem?_eq_getElem h]
    rfl
  · intro i h
    rw [hidx i, List.getElem?_eq_getElem h]
    show label2idxF lines ((uniqueLabels lines).get ⟨i, h⟩) = some i
    exact hlab i h
  · intro i
    rw [hidx i]
    constructor
    · intro h
      by_contra hlt
      rw [List.getElem?_eq_none (Nat.le_of_not_lt hlt)] at h
      simp at h
    · intro h
      rw [List.getElem?_eq_getElem h]
      rfl

/-- Witness for C9 on a concrete label file with a duplicated label. -/
theorem C9_get_labels_mutually_inverse_witness :
    (label2idxF [["label"], ["x"], ["y"], ["x"]] "x").bind
      (idx2labelF [["label"], ["x"], ["y"], ["x"]]) = some "x" ∧
    (idx2labelF [["label"], ["x"], ["y"], ["x"]] 0).bind
      (label2idxF [["label"], ["x"], ["y"], ["x"]]) = some 0 ∧
    ((idx2labelF [["label"], ["x"], ["y"], ["x"]] 1).isSome ↔
      1 < (uniqueLabels [["label"], ["x"], ["y"], ["x"]]).length) :=
  ⟨(C9_get_labels_mutually_inverse [["label"], ["x"], ["y"], ["x"]]).1 "x" (by decide),
   (C9_get_labels_mutually_inverse [["label"], ["x"], ["y"], ["x"]]).2.1 0 (by decide),
   (C9_get_labels_mutually_inverse [["label"], ["x"], ["y"], ["x"]]).2.2 1⟩

/-!
### Claim theorem for the data loader
-/

/-- C10: `relation_extraction_data_loader` raises `ValueError` for every
task other than `train` and `test` with the dataset conversion already
performed but no loader built, and otherwise builds a loader over the
converted dataset with a `RandomSampler` for `train` and a
`SequentialSampler` for `test`. -/
theorem C10_loader_dispatch {α β : Type} (f : α → β) (ds : α) (bs : Nat)
    (task : String) (hne1 : task ≠ "train") (hne2 : task ≠ "test") :
    relationExtractionDataLoader f ds bs task =
      ([LoaderEffect.convertedFeatures],
       Except.error ("task argument only support train or test but get " ++ task)) ∧
    relationExtractionDataLoader f ds bs "train" =
      ([LoaderEffect.convertedFeatures, LoaderEffect.builtLoader],
       Except.ok { dataset := f ds, sampler := SamplerKind.random,
                   batchSize := bs, pinMemory := true }) ∧
    relationExtractionDataLoader f ds bs "test" =
      ([LoaderEffect.convertedFeatures, LoaderEffect.builtLoader],
       Except.ok { dataset := f ds, sampler := SamplerKind.sequential,
                   batchSize := bs, pinMemory := true }) := by
  refine ⟨?_, ?_, ?_⟩
  · unfold relationExtractionDataLoader
    rw [if_neg hne1, if_neg hne2]
  · unfold relationExtractionDataLoader
    rw [if_pos rfl]
  · unfold relationExtractionDataLoader
    rw [if_neg (by decide), if_pos rfl]

/-- Witness for C10 at the unsupported task name `dev`. -/
theorem C10_loader_dispatch_witness :
    relationExtractionDataLoader (fun n : Nat => n + 1) 5 2 "dev" =
      ([LoaderEffect.convertedFeatures],
       Except.error ("task argument only support train or test but get " ++ "dev")) ∧
    relationExtractionDataLoader (fun n : Nat => n + 1) 5 2 "train" =
      ([LoaderEffect.convertedFeatures, LoaderEffect.builtLoader],
       Except.ok { dataset := 6, sampler := SamplerKind.random,
                   batchSize := 2, pinMemory := true }) ∧
    relationExtractionDataLoader (fun n : Nat => n + 1) 5 2 "test" =
      ([LoaderEffect.convertedFeatures, LoaderEffect.builtLoader],
       Except.ok { dataset := 6, sampler := SamplerKind.sequential,
                   batchSize := 2, pinMemory := true }) :=
  C10_loader_dispatch (fun n : Nat => n + 1) 5 2 "dev" (by decide) (by decide)

end CTRE
